import Mathlib

/-!
Shallow embedding of the core of `src/sentinel/framework.py`: the `Munger`
class (XOR-family byte transforms and the `munge`/`unmunge` round trip) and
the `Random` class (constrained secure sampling, raw byte drawing, base64
generation).

Modelling conventions:
* Python `bytes`/`bytearray` values are `List Nat`; a well-formed buffer has
  every entry below 256.  XOR, shifts and masks are `Nat` operations, which
  agree with Python on non-negative integers.
* `os.urandom` is modelled as an entropy stream `f : Nat -> Nat` together
  with a read position; a call drawing `n` bytes reads `f pos, ..., f (pos+n-1)`.
* Python exceptions are values of `PyErr`; fallible operations return
  `Except PyErr`.  `MungerException` messages are modelled by the enum
  `ErrMsg` (the source raises fixed string messages).
* The unbounded `while` loop in `Random.bytes` is modelled with explicit
  fuel; running out of fuel (`none`) witnesses that the loop has not
  terminated within that bound.
* Functions that mutate a caller-supplied `bytearray` key are modelled by
  returning the pair (result buffer, final key state); `callerKeyAfter`
  expresses what the caller observes, depending on whether the key argument
  was a mutable `bytearray` (aliased, so mutated in place) or an immutable
  `bytes` (copied by the `bytearray(key)` conversion, so unchanged).
-/

/-- Messages of the `MungerException` values raised in the source. -/
inductive ErrMsg where
  | dataMustNotBeZeroLength
  | keyMustNotBeZeroLength
  | keyMustBe0To255
deriving DecidableEq, Repr

/-- Python exception outcomes reachable in the modelled code. -/
inductive PyErr where
  | mungerException (msg : ErrMsg)
  | valueError
  | zeroDivisionError
  | unboundLocalError
deriving DecidableEq, Repr

/-- True exactly when the outcome is the typed `MungerException` error
(the InvalidInput error of the specification). -/
def isInvalidInput {α : Type} : Except PyErr α → Bool
  | .error (.mungerException _) => true
  | _ => false

/-- Bytes drawn from the entropy stream `f` starting at position `pos`:
models one `os.urandom n` call. -/
def osBytes (f : Nat → Nat) (pos n : Nat) : List Nat :=
  (List.range n).map fun i => f (pos + i)

/-- The 8-bit right rotation used by the rotating transforms, exactly as
written in the source: `(key >> bits) | (key << (8 - bits) & 0xFF)`. -/
def rotr8 (v bits : Nat) : Nat :=
  (v >>> bits) ||| ((v <<< (8 - bits)) &&& 0xFF)

/-- Munger.xor: XOR against a single integer key via a 256-entry translation
table.  The source guard is `key > 256 or key < 0` (note: 256 itself passes
the guard); `bytes([key ^ i for i in range(0,256)])` raises `ValueError`
when any table entry is at least 256. -/
def Munger.xor (data : List Nat) (key : Nat) : Except PyErr (List Nat) :=
  if data.length = 0 then .error (.mungerException .dataMustNotBeZeroLength)
  else if 256 < key ∨ key < 0 then .error (.mungerException .keyMustBe0To255)
  else
    let table := (List.range 256).map fun i => key ^^^ i
    if table.any fun v => 256 ≤ v then .error .valueError
    else .ok (data.map fun b => table.getD b 0)

/-- Loop body of Munger.rolling_xor.  The local feedback variable `k` is
never assigned before its first read in the source, so it is modelled as
`Option Nat` starting at `none`; reading `none` raises
`UnboundLocalError`.  After a byte is processed, `k` holds that plaintext
byte. -/
def rollingGo : List Nat → Option Nat → Except PyErr (List Nat)
  | [], _ => .ok []
  | _ :: _, none => .error .unboundLocalError
  | d :: ds, some kv =>
    match rollingGo ds (some d) with
    | .ok rest => .ok ((d ^^^ kv) :: rest)
    | .error e => .error e

/-- Munger.rolling_xor as written in the source: validates the inputs, then
runs a loop whose feedback variable is read before it is ever assigned. -/
def Munger.rolling_xor (data : List Nat) (key : Nat) : Except PyErr (List Nat) :=
  if data.length = 0 then .error (.mungerException .dataMustNotBeZeroLength)
  else if key < 0 ∨ 255 < key then .error (.mungerException .keyMustBe0To255)
  else rollingGo data none

/-- Loop of Munger.multi_byte_rolling_xor: position `k` cycles over the key;
each output byte is `data[i] ^ key[k]` and the key slot is then overwritten
with the plaintext byte `data[i]`.  Returns (output, final key state). -/
def mbRollingGo : List Nat → List Nat → Nat → List Nat × List Nat
  | [], key, _ => ([], key)
  | d :: ds, key, k =>
    let kv := key.getD k 0
    let key2 := key.set k d
    let k2 := if k + 1 = key.length then 0 else k + 1
    let r := mbRollingGo ds key2 k2
    ((d ^^^ kv) :: r.1, r.2)

/-- Munger.multi_byte_rolling_xor.  The second component of the result is
the final state of the key buffer (mutated in place when the caller passed
a `bytearray`). -/
def Munger.multi_byte_rolling_xor (data key : List Nat) :
    Except PyErr (List Nat × List Nat) :=
  if data.length = 0 then .error (.mungerException .dataMustNotBeZeroLength)
  else if key.length = 0 then .error (.mungerException .keyMustNotBeZeroLength)
  else .ok (mbRollingGo data key 0)

/-- Loop of Munger.rotating_xor: each output byte is `data[i] ^ key`, then
the key is rotated right by `bits`. -/
def rotatingGo (bits : Nat) : List Nat → Nat → List Nat
  | [], _ => []
  | d :: ds, key => (d ^^^ key) :: rotatingGo bits ds (rotr8 key bits)

/-- Munger.rotating_xor (the source default for `bits` is 3; callers here
pass it explicitly). -/
def Munger.rotating_xor (data : List Nat) (key : Nat) (bits : Nat) :
    Except PyErr (List Nat) :=
  if data.length = 0 then .error (.mungerException .dataMustNotBeZeroLength)
  else if key < 0 ∨ 255 < key then .error (.mungerException .keyMustBe0To255)
  else .ok (rotatingGo bits data key)

/-- Loop of Munger.multi_byte_rotating_xor: position `k` cycles over the
key; each output byte is `data[i] ^ key[k]` and the slot is then replaced
by its right rotation.  Returns (output, final key state). -/
def mbRotatingGo (bits : Nat) : List Nat → List Nat → Nat → List Nat × List Nat
  | [], key, _ => ([], key)
  | d :: ds, key, k =>
    let kv := key.getD k 0
    let key2 := key.set k (rotr8 kv bits)
    let k2 := if k + 1 = key.length then 0 else k + 1
    let r := mbRotatingGo bits ds key2 k2
    ((d ^^^ kv) :: r.1, r.2)

/-- Munger.multi_byte_rotating_xor (the source default for `bits` is 3).
The second
component of the result is the final state of the key buffer. -/
def Munger.multi_byte_rotating_xor (data key : List Nat) (bits : Nat) :
    Except PyErr (List Nat × List Nat) :=
  if data.length = 0 then .error (.mungerException .dataMustNotBeZeroLength)
  else if key.length = 0 then .error (.mungerException .keyMustNotBeZeroLength)
  else .ok (mbRotatingGo bits data key 0)

/-- Munger.munge.  The 4-byte `os.urandom(4)` key is passed explicitly as
`key`; the source computes `key + self.multi_byte_rotating_xor(data, key)`.
The `key` bytes prepended are the original ones: the transform copies a
`bytes` key before mutating it. -/
def Munger.munge (data key : List Nat) : Except PyErr (List Nat) :=
  match Munger.multi_byte_rotating_xor data key 3 with
  | .ok r => .ok (key ++ r.1)
  | .error e => .error e

/-- Munger.unmunge: `multi_byte_rotating_xor(data[4:], data[:4])`. -/
def Munger.unmunge (data : List Nat) : Except PyErr (List Nat) :=
  match Munger.multi_byte_rotating_xor (data.drop 4) (data.take 4) 3 with
  | .ok r => .ok r.1
  | .error e => .error e

/-- Caller-visible key buffer after a transform call: a `bytearray` key is
aliased and mutated in place (on success the caller sees the final key
state; validation errors happen before the loop, leaving it untouched),
while a `bytes` key is copied by `bytearray(key)` and stays unchanged. -/
def callerKeyAfter (mutableKey : Bool) (key : List Nat)
    (r : Except PyErr (List Nat × List Nat)) : List Nat :=
  if mutableKey then
    match r with
    | .ok p => p.2
    | .error _ => key
  else key

/-- Value-level model of a Python `set` of byte values: duplicates removed.
CPython iteration order over an int set is an implementation detail; only
membership and the absence of duplicates are relied upon downstream. -/
def pySet : List Nat → List Nat
  | [] => []
  | a :: rest =>
    let r := pySet rest
    if a ∈ r then r else a :: r

/-- The avoid-removal loop of Random.sample:
`for a in avoid: if a in sequence: sequence.pop(sequence.find(a))`.
`pop(find(a))` removes the first occurrence, i.e. `List.erase`. -/
def removeAvoid (seq : List Nat) : List Nat → List Nat
  | [] => seq
  | a :: rest => removeAvoid (if a ∈ seq then seq.erase a else seq) rest

/-- Loop of Random.bytes with explicit fuel:
`while len(ret) != length: ret += urandom(length - len(ret)).translate(None, avoid)`.
`translate(None, avoid)` deletes every byte present in `avoid`.  `none`
means the loop was still running when the fuel ran out. -/
def bytesGo (f : Nat → Nat) (avoidSet : List Nat) (length : Nat) :
    Nat → Nat → List Nat → Option (List Nat)
  | 0, _, _ => none
  | fuel + 1, pos, ret =>
    if ret.length = length then some ret
    else
      let need := length - ret.length
      let chunk := (osBytes f pos need).filter fun b => decide (b ∉ avoidSet)
      bytesGo f avoidSet length fuel (pos + need) (ret ++ chunk)

/-- Random.bytes: secure random bytes avoiding the byte values listed in
`avoid` (deduplicated by `bytes(set(avoid))` in the source). -/
def Random.bytes (f : Nat → Nat) (length : Nat) (avoid : List Nat)
    (fuel : Nat) : Option (List Nat) :=
  bytesGo f (pySet avoid) length fuel 0 []

/-- Random.sample: deduplicate the sequence, remove avoided bytes, then map
`length` entropy bytes through `sequence[x % len(sequence)]`.  With an empty
working alphabet and a positive length, the first subscript evaluates
`x % 0`, raising `ZeroDivisionError`; with length 0 the comprehension is
empty and no subscript is evaluated. -/
def Random.sample (sequence : List Nat) (length : Nat) (avoid : List Nat)
    (f : Nat → Nat) : Except PyErr (List Nat) :=
  let seq2 := removeAvoid (pySet sequence) (pySet avoid)
  if seq2.length = 0 ∧ length ≠ 0 then .error .zeroDivisionError
  else .ok ((osBytes f 0 length).map fun x => seq2.getD (x % seq2.length) 0)

/-- The base64 sampling alphabet of the source:
`bytes(range(48,58)) + bytes(range(65,91)) + bytes(range(97,123)) + b++//`
(digits, upper case, lower case, plus, slash). -/
def base64alphabet : List Nat :=
  List.range' 48 10 ++ List.range' 65 26 ++ List.range' 97 26 ++ [43, 47]

/-- The standard base64 character for a 6-bit value, as an ASCII code. -/
def b64chr (w : Nat) : Nat :=
  if w < 26 then 65 + w
  else if w < 52 then 71 + w
  else if w < 62 then w - 4
  else if w = 62 then 43
  else 47

/-- Standard base64 encoding of a byte list, three input bytes per four
output characters, padded with `=` (61): models `binascii.b2a_base64`
without the trailing newline. -/
def b64encode : List Nat → List Nat
  | a :: b :: c :: rest =>
    b64chr ((a * 65536 + b * 256 + c) / 262144) ::
    b64chr ((a * 65536 + b * 256 + c) / 4096 % 64) ::
    b64chr ((a * 65536 + b * 256 + c) / 64 % 64) ::
    b64chr ((a * 65536 + b * 256 + c) % 64) :: b64encode rest
  | [a, b] =>
    [b64chr ((a * 65536 + b * 256) / 262144),
     b64chr ((a * 65536 + b * 256) / 4096 % 64),
     b64chr ((a * 65536 + b * 256) / 64 % 64), 61]
  | [a] =>
    [b64chr (a * 65536 / 262144), b64chr (a * 65536 / 4096 % 64), 61, 61]
  | [] => []

/-- Model of `binascii.b2a_base64`: base64 encoding plus a trailing
newline (10). -/
def b2a_base64 (bs : List Nat) : List Nat := b64encode bs ++ [10]

/-- Inverse of the base64 character map on the alphabet. -/
def b64dec (c : Nat) : Nat :=
  if 65 ≤ c ∧ c ≤ 90 then c - 65
  else if 97 ≤ c ∧ c ≤ 122 then c - 71
  else if 48 ≤ c ∧ c ≤ 57 then c + 4
  else if c = 43 then 62
  else if c = 47 then 63
  else 0

/-- Standard base64 decoding of a character stream, four characters per
three output bytes, honouring `=` (61) padding. -/
def b64decodeChunks : List Nat → List Nat
  | c0 :: c1 :: c2 :: c3 :: rest =>
    if c2 = 61 then [b64dec c0 * 4 + b64dec c1 / 16]
    else if c3 = 61 then
      [b64dec c0 * 4 + b64dec c1 / 16, b64dec c1 % 16 * 16 + b64dec c2 / 4]
    else
      (b64dec c0 * 4 + b64dec c1 / 16) ::
      (b64dec c1 % 16 * 16 + b64dec c2 / 4) ::
      (b64dec c2 % 4 * 64 + b64dec c3) :: b64decodeChunks rest
  | _ => []

/-- Model of `binascii.a2b_base64`: standard base64 decoding, ignoring
newline characters. -/
def a2b_base64 (s : List Nat) : List Nat :=
  b64decodeChunks (s.filter fun c => decide (c ≠ 10))

/-- Random.base64.  The decodable branch draws
`math.ceil(length * 5 / 6)` raw random bytes (the exact rational ceiling
`(5 * length + 5) / 6`; the float expression of the source rounds to the
same integer) via Random.bytes with an empty avoid set, then base64-encodes
them.  Fuel 2 always suffices for that call (lemma `bytes_empty_avoid`), so
the `none` branch is unreachable. -/
def Random.base64 (f : Nat → Nat) (length : Nat) (avoid : List Nat)
    (decodable : Bool) : Except PyErr (List Nat) :=
  if !decodable then Random.sample base64alphabet length avoid f
  else
    match Random.bytes f ((5 * length + 5) / 6) [] 2 with
    | some bs => .ok (b2a_base64 bs)
    | none => .error .valueError

/-! ### Supporting lemmas -/

lemma osBytes_length (f : Nat → Nat) (pos n : Nat) :
    (osBytes f pos n).length = n := by
  simp [osBytes]

lemma rotatingGo_length (bits : Nat) :
    ∀ (ds : List Nat) (key : Nat), (rotatingGo bits ds key).length = ds.length
  | [], _ => rfl
  | _ :: ds, key => by
    simp [rotatingGo, rotatingGo_length bits ds]

lemma rotatingGo_getD (bits : Nat) :
    ∀ (ds : List Nat) (key i : Nat), i < ds.length →
      (rotatingGo bits ds key).getD i 0 =
        ds.getD i 0 ^^^ (fun v => rotr8 v bits)^[i] key
  | [], _, i, h => by simp at h
  | d :: ds, key, 0, _ => by simp [rotatingGo]
  | d :: ds, key, i + 1, h => by
    have hi : i < ds.length := by simpa using h
    simp only [rotatingGo, List.getD_cons_succ]
    rw [rotatingGo_getD bits ds (rotr8 key bits) i hi,
      Function.iterate_succ_apply]

lemma b64chr_lt_61 (w : Nat) : b64chr w ≠ 61 := by
  unfold b64chr
  split_ifs <;> omega

lemma b64chr_ne_10 (w : Nat) : b64chr w ≠ 10 := by
  unfold b64chr
  split_ifs <;> omega

lemma b64dec_b64chr (w : Nat) (h : w < 64) : b64dec (b64chr w) = w := by
  unfold b64chr b64dec
  split_ifs <;> omega

lemma b64encode_no_newline :
    ∀ (bs : List Nat), ∀ x ∈ b64encode bs, x ≠ 10
  | [] => by simp [b64encode]
  | [a] => by
    simp only [b64encode, List.mem_cons, List.not_mem_nil, or_false]
    rintro x (rfl | rfl | rfl | rfl) <;> first | exact b64chr_ne_10 _ | omega
  | [a, b] => by
    simp only [b64encode, List.mem_cons, List.not_mem_nil, or_false]
    rintro x (rfl | rfl | rfl | rfl) <;> first | exact b64chr_ne_10 _ | omega
  | a :: b :: c :: rest => by
    simp only [b64encode, List.mem_cons]
    rintro x (rfl | rfl | rfl | rfl | hx)
    · exact b64chr_ne_10 _
    · exact b64chr_ne_10 _
    · exact b64chr_ne_10 _
    · exact b64chr_ne_10 _
    · exact b64encode_no_newline rest x hx

lemma b64encode_length :
    ∀ (bs : List Nat), (b64encode bs).length = (bs.length + 2) / 3 * 4
  | [] => rfl
  | [_] => by simp [b64encode]
  | [_, _] => by simp [b64encode]
  | _ :: _ :: _ :: rest => by
    simp only [b64encode, List.length_cons, b64encode_length rest]
    omega

lemma b64decode_b64encode :
    ∀ (bs : List Nat), (∀ x ∈ bs, x < 256) →
      b64decodeChunks (b64encode bs) = bs
  | [], _ => rfl
  | [a], h => by
    have ha : a < 256 := h a (by simp)
    have h0 : a * 65536 / 262144 < 64 := by omega
    have h1 : a * 65536 / 4096 % 64 < 64 := by omega
    have e1 : b64encode [a] =
        [b64chr (a * 65536 / 262144), b64chr (a * 65536 / 4096 % 64), 61, 61] := rfl
    rw [e1, b64decodeChunks, if_pos rfl,
      b64dec_b64chr _ h0, b64dec_b64chr _ h1]
    simp only [List.cons.injEq, and_true]
    omega
  | [a, b], h => by
    have ha : a < 256 := h a (by simp)
    have hb : b < 256 := h b (by simp)
    have h0 : (a * 65536 + b * 256) / 262144 < 64 := by omega
    have h1 : (a * 65536 + b * 256) / 4096 % 64 < 64 := by omega
    have h2 : (a * 65536 + b * 256) / 64 % 64 < 64 := by omega
    have e1 : b64encode [a, b] =
        [b64chr ((a * 65536 + b * 256) / 262144),
         b64chr ((a * 65536 + b * 256) / 4096 % 64),
         b64chr ((a * 65536 + b * 256) / 64 % 64), 61] := rfl
    rw [e1, b64decodeChunks, if_neg (b64chr_lt_61 _), if_pos rfl,
      b64dec_b64chr _ h0, b64dec_b64chr _ h1, b64dec_b64chr _ h2]
    simp only [List.cons.injEq, and_true]
    refine ⟨by omega, by omega⟩
  | a :: b :: c :: rest, h => by
    have ha : a < 256 := h a (by simp)
    have hb : b < 256 := h b (by simp)
    have hc : c < 256 := h c (by simp)
    have ih := b64decode_b64encode rest fun x hx => h x (by simp [hx])
    have h0 : (a * 65536 + b * 256 + c) / 262144 < 64 := by omega
    have h1 : (a * 65536 + b * 256 + c) / 4096 % 64 < 64 := by omega
    have h2 : (a * 65536 + b * 256 + c) / 64 % 64 < 64 := by omega
    have h3 : (a * 65536 + b * 256 + c) % 64 < 64 := by omega
    rw [b64encode, b64decodeChunks, if_neg (b64chr_lt_61 _),
      if_neg (b64chr_lt_61 _), b64dec_b64chr _ h0, b64dec_b64chr _ h1,
      b64dec_b64chr _ h2, b64dec_b64chr _ h3, ih]
    simp only [List.cons.injEq, and_true]
    refine ⟨by omega, by omega, by omega⟩

lemma a2b_b2a_base64 (bs : List Nat) (h : ∀ x ∈ bs, x < 256) :
    a2b_base64 (b2a_base64 bs) = bs := by
  unfold a2b_base64 b2a_base64
  rw [List.filter_append]
  have h1 : (b64encode bs).filter (fun c => decide (c ≠ 10)) = b64encode bs := by
    rw [List.filter_eq_self]
    intro x hx
    simpa using b64encode_no_newline bs x hx
  have h2 : ([10] : List Nat).filter (fun c => decide (c ≠ 10)) = [] := by decide
  rw [h1, h2, List.append_nil]
  exact b64decode_b64encode bs h

lemma mem_pySet {x : Nat} : ∀ {l : List Nat}, x ∈ pySet l ↔ x ∈ l
  | [] => Iff.rfl
  | a :: rest => by
    simp only [pySet, List.mem_cons]
    split_ifs with hmem
    · rw [mem_pySet]
      constructor
      · exact Or.inr
      · rintro (rfl | hx)
        · exact mem_pySet.mp hmem
        · exact hx
    · simp only [List.mem_cons]
      rw [mem_pySet]

lemma nodup_pySet : ∀ (l : List Nat), (pySet l).Nodup
  | [] => List.nodup_nil
  | a :: rest => by
    simp only [pySet]
    split_ifs with hmem
    · exact nodup_pySet rest
    · exact List.Nodup.cons hmem (nodup_pySet rest)

lemma nodup_removeAvoid :
    ∀ (av seq : List Nat), seq.Nodup → (removeAvoid seq av).Nodup
  | [], _, h => h
  | a :: rest, seq, h => by
    simp only [removeAvoid]
    apply nodup_removeAvoid rest
    split_ifs with hmem
    · exact h.erase a
    · exact h

lemma mem_removeAvoid {x : Nat} :
    ∀ (av seq : List Nat), seq.Nodup →
      (x ∈ removeAvoid seq av ↔ x ∈ seq ∧ x ∉ av)
  | [], seq, _ => by simp [removeAvoid]
  | a :: rest, seq, h => by
    simp only [removeAvoid]
    by_cases hmem : a ∈ seq
    · rw [if_pos hmem, mem_removeAvoid rest _ (h.erase a),
        h.mem_erase_iff]
      simp only [List.mem_cons]
      constructor
      · rintro ⟨⟨hne, hx⟩, hr⟩
        exact ⟨hx, by rintro (rfl | hv) <;> [exact hne rfl; exact hr hv]⟩
      · rintro ⟨hx, hr⟩
        refine ⟨⟨fun hxa => hr (Or.inl hxa), hx⟩, fun hv => hr (Or.inr hv)⟩
    · rw [if_neg hmem, mem_removeAvoid rest _ h]
      simp only [List.mem_cons]
      constructor
      · rintro ⟨hx, hr⟩
        refine ⟨hx, ?_⟩
        rintro (rfl | hv)
        · exact hmem hx
        · exact hr hv
      · rintro ⟨hx, hr⟩
        exact ⟨hx, fun hv => hr (Or.inr hv)⟩

lemma mem_workingAlphabet {x : Nat} (seq av : List Nat) :
    x ∈ removeAvoid (pySet seq) (pySet av) ↔ x ∈ seq ∧ x ∉ av := by
  rw [mem_removeAvoid (pySet av) (pySet seq) (nodup_pySet seq),
    mem_pySet]
  constructor
  · rintro ⟨hx, hr⟩
    exact ⟨hx, fun hv => hr (mem_pySet.mpr hv)⟩
  · rintro ⟨hx, hr⟩
    exact ⟨hx, fun hv => hr (mem_pySet.mp hv)⟩

lemma mbRotatingGo_fst_length (bits : Nat) :
    ∀ (ds key : List Nat) (k : Nat),
      (mbRotatingGo bits ds key k).1.length = ds.length
  | [], _, _ => rfl
  | d :: ds, key, k => by
    simp only [mbRotatingGo, List.length_cons,
      mbRotatingGo_fst_length bits ds]

lemma mbRotatingGo_involution (bits : Nat) :
    ∀ (ds key : List Nat) (k : Nat),
      (mbRotatingGo bits (mbRotatingGo bits ds key k).1 key k).1 = ds
  | [], _, _ => rfl
  | d :: ds, key, k => by
    simp only [mbRotatingGo]
    rw [mbRotatingGo_involution bits ds]
    simp [Nat.xor_assoc]

/-! ### Claim theorems -/

/-- C1: for every non-empty byte buffer and every 4-byte key (the
`os.urandom(4)` draw), `unmunge (munge data) = data`: munge returns
`key ++ multi_byte_rotating_xor data key`, and unmunge splits the first
4 bytes back off and applies the same self-inverse transform. -/
theorem munge_unmunge_roundtrip (data key : List Nat)
    (hd : data ≠ []) (hk : key.length = 4) :
    Except.bind (Munger.munge data key) Munger.unmunge = .ok data := by
  have hd0 : ¬ data.length = 0 := by
    simpa using fun h => hd (List.length_eq_zero.mp h)
  have hk0 : ¬ key.length = 0 := by omega
  unfold Munger.munge Munger.multi_byte_rotating_xor
  rw [if_neg hd0, if_neg hk0]
  simp only [Except.bind]
  unfold Munger.unmunge Munger.multi_byte_rotating_xor
  rw [show (4 : Nat) = key.length from hk.symm, List.drop_left,
    List.take_left]
  rw [if_neg (by rw [mbRotatingGo_fst_length]; exact hd0), if_neg hk0]
  simp only [mbRotatingGo_involution]

/-- Witness for C1 at a concrete input. -/
theorem munge_unmunge_roundtrip_witness :
    Except.bind (Munger.munge [1, 2, 3] [5, 6, 7, 8]) Munger.unmunge =
      .ok [1, 2, 3] :=
  munge_unmunge_roundtrip [1, 2, 3] [5, 6, 7, 8] (by decide) (by decide)

/-- C2: contrary to the claimed schedule (out[0] = in[0] XOR key), the
source of `rolling_xor` never initializes its feedback variable `k`
before first reading it, so every call on a non-empty buffer with an
in-range key raises `UnboundLocalError` instead of returning any output. -/
theorem rolling_xor_unbound_local (data : List Nat) (key : Nat)
    (hd : data ≠ []) (hk : ¬ (key < 0 ∨ 255 < key)) :
    Munger.rolling_xor data key = .error .unboundLocalError := by
  have hd0 : ¬ data.length = 0 := by
    simpa using fun h => hd (List.length_eq_zero.mp h)
  unfold Munger.rolling_xor
  rw [if_neg hd0, if_neg hk]
  match data, hd with
  | d :: ds, _ => rfl

/-- Witness for C2: rolling_xor on the single byte 0 with key 0 raises the
untyped `UnboundLocalError`. -/
theorem rolling_xor_unbound_local_witness :
    Munger.rolling_xor [0] 0 = .error .unboundLocalError :=
  rolling_xor_unbound_local [0] 0 (by decide) (by decide)

/-- C6: the claim that any key outside [0,255] is rejected with the typed
`MungerException` fails at key = 256: the source guard `key > 256` lets
256 through, and the table construction `bytes([256 ^ i ...])` then
raises an untyped `ValueError` (every entry is at least 256), contradicting
the guard message that the key must be 0-255. -/
theorem xor_key256_valueError :
    Munger.xor [0] 256 = .error .valueError ∧
      isInvalidInput (Munger.xor [0] 256) = false := by
  constructor <;> rfl

/-- C7: rotating_xor follows the schedule
`out[i] = in[i] XOR (rotate_right_8bit iterated i times on key)`, and the
fixed vector `rotating_xor [0,0,0] 7 (bits 3)` yields `[0b00000111,
0b11100000, 0b00011100]`. -/
theorem rotating_xor_schedule :
    (∀ (data : List Nat) (key bits : Nat), data ≠ [] →
      ¬ (key < 0 ∨ 255 < key) →
      ∃ out, Munger.rotating_xor data key bits = .ok out ∧
        out.length = data.length ∧
        ∀ i, i < data.length →
          out.getD i 0 = data.getD i 0 ^^^ (fun v => rotr8 v bits)^[i] key) ∧
    Munger.rotating_xor [0, 0, 0] 7 3 = .ok [7, 224, 28] := by
  constructor
  · intro data key bits hd hk
    have hd0 : ¬ data.length = 0 := by
      simpa using fun h => hd (List.length_eq_zero.mp h)
    refine ⟨rotatingGo bits data key, ?_, rotatingGo_length bits data key,
      fun i hi => rotatingGo_getD bits data key i hi⟩
    unfold Munger.rotating_xor
    rw [if_neg hd0, if_neg hk]
  · rfl

/-- Witness for C7: the schedule statement applied at a concrete input. -/
theorem rotating_xor_schedule_witness :
    ∃ out, Munger.rotating_xor [1, 2] 5 2 = .ok out ∧
      out.length = ([1, 2] : List Nat).length ∧
      ∀ i, i < ([1, 2] : List Nat).length →
        out.getD i 0 = ([1, 2] : List Nat).getD i 0 ^^^
          (fun v => rotr8 v 2)^[i] 5 :=
  rotating_xor_schedule.1 [1, 2] 5 2 (by decide) (by decide)

/-- C9: a 4-byte blob leaves `unmunge` with an empty payload, which the
underlying transform rejects with the typed `MungerException`; and any
successful `unmunge` requires a blob of length at least 5. -/
theorem unmunge_length4_rejected (blob : List Nat) :
    (blob.length = 4 →
      Munger.unmunge blob =
        .error (.mungerException .dataMustNotBeZeroLength)) ∧
    (∀ out, Munger.unmunge blob = .ok out → 5 ≤ blob.length) := by
  constructor
  · intro h4
    have hdrop : blob.drop 4 = [] := by
      rw [List.drop_eq_nil_iff]
      omega
    unfold Munger.unmunge Munger.multi_byte_rotating_xor
    rw [hdrop]
    rfl
  · intro out hok
    by_contra hlt
    have hdrop : blob.drop 4 = [] := by
      rw [List.drop_eq_nil_iff]
      omega
    unfold Munger.unmunge Munger.multi_byte_rotating_xor at hok
    rw [hdrop] at hok
    simp at hok

/-- Witness for C9 at the concrete blob [1,2,3,4]. -/
theorem unmunge_length4_rejected_witness :
    Munger.unmunge [1, 2, 3, 4] =
      .error (.mungerException .dataMustNotBeZeroLength) :=
  (unmunge_length4_rejected [1, 2, 3, 4]).1 rfl

lemma set_take_succ (key : List Nat) (k v : Nat) (h : k < key.length) :
    (key.set k v).take (k + 1) = key.take k ++ [v] := by
  rw [List.set_eq_take_cons_drop v h, List.take_append_eq_append_take,
    List.take_take]
  have h1 : min (k + 1) k = k := by omega
  have h2 : (key.take k).length = k := by
    rw [List.length_take]
    omega
  rw [h1, h2]
  simp

lemma set_drop_succ (key : List Nat) (k v : Nat) (h : k < key.length) :
    (key.set k v).drop (k + 1) = key.drop (k + 1) := by
  rw [List.set_eq_take_cons_drop v h, List.drop_append_eq_append_drop]
  have h2 : (key.take k).length = k := by
    rw [List.length_take]
    omega
  rw [h2, List.drop_eq_nil_of_le (by rw [h2]; omega : (key.take k).length ≤ k + 1)]
  simp

lemma mbRollingGo_snd :
    ∀ (ds key : List Nat) (k : Nat), k + ds.length = key.length →
      (mbRollingGo ds key k).2 = key.take k ++ ds
  | [], key, k, h => by
    have hk : k = key.length := by simpa using h
    subst hk
    simp [mbRollingGo, List.take_length]
  | d :: ds, key, k, h => by
    have hklt : k < key.length := by
      simp only [List.length_cons] at h
      omega
    simp only [mbRollingGo]
    by_cases hwrap : k + 1 = key.length
    · have hds : ds = [] := by
        simp only [List.length_cons] at h
        have : ds.length = 0 := by omega
        exact List.length_eq_zero.mp this
      subst hds
      rw [if_pos hwrap]
      show (key.set k d) = key.take k ++ [d]
      rw [List.set_eq_take_cons_drop d hklt,
        List.drop_eq_nil_of_le (by omega)]
    · rw [if_neg hwrap]
      have hlen : (k + 1) + ds.length = (key.set k d).length := by
        rw [List.length_set]
        simp only [List.length_cons] at h
        omega
      rw [mbRollingGo_snd ds (key.set k d) (k + 1) hlen,
        set_take_succ key k d hklt]
      simp

lemma mbRotatingGo_snd (bits : Nat) :
    ∀ (ds key : List Nat) (k : Nat), k + ds.length = key.length →
      (mbRotatingGo bits ds key k).2 =
        key.take k ++ (key.drop k).map fun v => rotr8 v bits
  | [], key, k, h => by
    have hk : k = key.length := by simpa using h
    subst hk
    simp [mbRotatingGo, List.take_length, List.drop_length]
  | d :: ds, key, k, h => by
    have hklt : k < key.length := by
      simp only [List.length_cons] at h
      omega
    have hdropk : key.drop k = key[k] :: key.drop (k + 1) :=
      List.drop_eq_getElem_cons hklt
    have hgetD : key.getD k 0 = key[k] := List.getD_eq_getElem key 0 hklt
    simp only [mbRotatingGo, hgetD]
    by_cases hwrap : k + 1 = key.length
    · have hds : ds = [] := by
        simp only [List.length_cons] at h
        have : ds.length = 0 := by omega
        exact List.length_eq_zero.mp this
      subst hds
      rw [if_pos hwrap]
      show key.set k (rotr8 key[k] bits) =
        key.take k ++ (key.drop k).map fun v => rotr8 v bits
      rw [hdropk, List.set_eq_take_cons_drop _ hklt,
        List.drop_eq_nil_of_le (by omega)]
      simp
    · rw [if_neg hwrap]
      have hlen : (k + 1) + ds.length = (key.set k (rotr8 key[k] bits)).length := by
        rw [List.length_set]
        simp only [List.length_cons] at h
        omega
      rw [mbRotatingGo_snd bits ds _ (k + 1) hlen,
        set_take_succ key k _ hklt, set_drop_succ key k _ hklt, hdropk]
      simp only [List.map_cons, List.append_assoc, List.cons_append,
        List.nil_append]

/-- C10: with a data buffer as long as the key, a `bytearray` key is
mutated in place: after `multi_byte_rolling_xor` every key slot holds the
plaintext byte it masked (the final key is the data), and after
`multi_byte_rotating_xor` every slot holds its rotation; an immutable
`bytes` key is copied, leaving the key of the caller unchanged; and
applying the rotating transform twice while threading the mutated
`bytearray` key does not round-trip ([1] with key [1] comes back as [32]),
whereas a fresh copy of the key does round-trip. -/
theorem multi_byte_key_mutation :
    (∀ data key : List Nat, data ≠ [] → data.length = key.length →
      callerKeyAfter true key (Munger.multi_byte_rolling_xor data key) =
        data ∧
      callerKeyAfter false key (Munger.multi_byte_rolling_xor data key) =
        key) ∧
    (∀ data key : List Nat, data ≠ [] → data.length = key.length →
      callerKeyAfter true key (Munger.multi_byte_rotating_xor data key 3) =
        key.map (fun v => rotr8 v 3) ∧
      callerKeyAfter false key (Munger.multi_byte_rotating_xor data key 3) =
        key) ∧
    (Munger.multi_byte_rotating_xor [1] [1] 3 = .ok ([0], [32]) ∧
     Munger.multi_byte_rotating_xor [0] [32] 3 = .ok ([32], [4]) ∧
     ([32] : List Nat) ≠ [1] ∧
     Munger.multi_byte_rotating_xor [0] [1] 3 = .ok ([1], [32])) := by
  refine ⟨?_, ?_, rfl, rfl, by decide, rfl⟩
  · intro data key hd hlen
    have hd0 : ¬ data.length = 0 := by
      simpa using fun h => hd (List.length_eq_zero.mp h)
    have hk0 : ¬ key.length = 0 := by omega
    unfold Munger.multi_byte_rolling_xor
    rw [if_neg hd0, if_neg hk0]
    constructor
    · show (mbRollingGo data key 0).2 = data
      rw [mbRollingGo_snd data key 0 (by omega)]
      simp
    · rfl
  · intro data key hd hlen
    have hd0 : ¬ data.length = 0 := by
      simpa using fun h => hd (List.length_eq_zero.mp h)
    have hk0 : ¬ key.length = 0 := by omega
    unfold Munger.multi_byte_rotating_xor
    rw [if_neg hd0, if_neg hk0]
    constructor
    · show (mbRotatingGo 3 data key 0).2 = key.map fun v => rotr8 v 3
      rw [mbRotatingGo_snd 3 data key 0 (by omega)]
      simp
    · rfl

/-- Witness for C10: the mutation statements applied at a concrete input. -/
theorem multi_byte_key_mutation_witness :
    callerKeyAfter true [9] (Munger.multi_byte_rolling_xor [5] [9]) = [5] ∧
    callerKeyAfter false [9] (Munger.multi_byte_rotating_xor [5] [9] 3) =
      [9] :=
  ⟨(multi_byte_key_mutation.1 [5] [9] (by decide) (by decide)).1,
   (multi_byte_key_mutation.2.1 [5] [9] (by decide) (by decide)).2⟩

/-- C4 counterexample: with alphabet [97], avoid [97] and length 1, the
working alphabet is empty and `sample` fails with `ZeroDivisionError`
(from `x % 0`), which is not the typed InvalidInput (`MungerException`)
error the claim requires. -/
theorem sample_exhausted_counterexample :
    Random.sample [97] 1 [97] (fun _ => 0) = .error .zeroDivisionError ∧
      isInvalidInput (Random.sample [97] 1 [97] (fun _ => 0)) = false := by
  constructor <;> rfl

/-- C4 amended: when the working alphabet `set(alphabet) - set(avoid)` is
empty, `sample` fails for every positive length, but with the untyped
`ZeroDivisionError` raised by `x % 0` rather than the typed InvalidInput
error; for length 0 it succeeds and returns the empty string. -/
theorem sample_exhausted (sequence : List Nat) (length : Nat)
    (avoid : List Nat) (f : Nat → Nat)
    (h : ∀ x ∈ sequence, x ∈ avoid) :
    (length ≠ 0 →
      Random.sample sequence length avoid f = .error .zeroDivisionError) ∧
    (length = 0 → Random.sample sequence length avoid f = .ok []) := by
  have hempty : removeAvoid (pySet sequence) (pySet avoid) = [] := by
    rw [List.eq_nil_iff_forall_not_mem]
    intro x hx
    rcases (mem_workingAlphabet sequence avoid).mp hx with ⟨hxs, hxa⟩
    exact hxa (h x hxs)
  constructor
  · intro hlen
    unfold Random.sample
    rw [if_pos ⟨by rw [hempty]; rfl, hlen⟩]
  · intro hlen
    subst hlen
    unfold Random.sample
    simp [osBytes]

/-- Witness for C4 at a concrete exhausted alphabet. -/
theorem sample_exhausted_witness :
    Random.sample [97] 1 [97] (fun _ => 7) = .error .zeroDivisionError :=
  (sample_exhausted [97] 1 [97] (fun _ => 7) (by decide)).1 (by decide)

/-- C8: with a non-empty working alphabet, `sample` succeeds, returns
exactly `length` bytes, and every returned byte is a member of the
alphabet and not a member of the avoid set. -/
theorem sample_containment (sequence : List Nat) (length : Nat)
    (avoid : List Nat) (f : Nat → Nat)
    (h : ∃ x, x ∈ sequence ∧ x ∉ avoid) :
    ∃ out, Random.sample sequence length avoid f = .ok out ∧
      out.length = length ∧
      ∀ b ∈ out, b ∈ sequence ∧ b ∉ avoid := by
  obtain ⟨x, hxs, hxa⟩ := h
  have hx : x ∈ removeAvoid (pySet sequence) (pySet avoid) :=
    (mem_workingAlphabet sequence avoid).mpr ⟨hxs, hxa⟩
  have hne : removeAvoid (pySet sequence) (pySet avoid) ≠ [] := by
    intro hnil
    rw [hnil] at hx
    exact List.not_mem_nil x hx
  have hlen0 : ¬ (removeAvoid (pySet sequence) (pySet avoid)).length = 0 :=
    fun hz => hne (List.length_eq_zero.mp hz)
  refine ⟨(osBytes f 0 length).map fun v =>
    (removeAvoid (pySet sequence) (pySet avoid)).getD
      (v % (removeAvoid (pySet sequence) (pySet avoid)).length) 0, ?_, ?_, ?_⟩
  · unfold Random.sample
    rw [if_neg]
    rintro ⟨hz, _⟩
    exact hlen0 hz
  · rw [List.length_map, osBytes_length]
  · intro b hb
    rcases List.mem_map.mp hb with ⟨v, _, rfl⟩
    have hidx : v % (removeAvoid (pySet sequence) (pySet avoid)).length <
        (removeAvoid (pySet sequence) (pySet avoid)).length :=
      Nat.mod_lt v (by omega)
    rw [List.getD_eq_getElem _ 0 hidx]
    exact (mem_workingAlphabet sequence avoid).mp (List.getElem_mem hidx)

/-- Witness for C8 at a concrete input. -/
theorem sample_containment_witness :
    ∃ out, Random.sample [97, 98] 3 [97] (fun i => i * 11) = .ok out ∧
      out.length = 3 ∧ ∀ b ∈ out, b ∈ [97, 98] ∧ b ∉ [97] :=
  sample_containment [97, 98] 3 [97] (fun i => i * 11)
    ⟨98, by decide, by decide⟩

lemma bytesGo_all_avoided (f : Nat → Nat) (avoidSet : List Nat)
    (length : Nat) (hl : length ≠ 0) (hf : ∀ i, f i ∈ avoidSet) :
    ∀ (fuel pos : Nat), bytesGo f avoidSet length fuel pos [] = none := by
  intro fuel
  induction fuel with
  | zero => intro pos; rfl
  | succ fuel ih =>
    intro pos
    unfold bytesGo
    rw [if_neg (by simpa using fun h => hl h.symm)]
    have hchunk :
        (osBytes f pos (length - ([] : List Nat).length)).filter
          (fun b => decide (b ∉ avoidSet)) = [] := by
      rw [List.filter_eq_nil_iff]
      intro b hb
      rcases List.mem_map.mp hb with ⟨i, _, rfl⟩
      simpa using hf (pos + i)
    show bytesGo f avoidSet length fuel
        (pos + (length - ([] : List Nat).length))
        ([] ++ (osBytes f pos (length - ([] : List Nat).length)).filter
          (fun b => decide (b ∉ avoidSet))) = none
    rw [hchunk]
    exact ih (pos + (length - ([] : List Nat).length))

/-- C5: when the avoid set covers every byte value the stream can
produce, the `while` loop of `Random.bytes` never terminates: for every
fuel bound the loop is still running (`none`), contradicting the claim
that the operation fails with the typed InvalidInput error. -/
theorem bytes_all_avoided_diverges (f : Nat → Nat) (length : Nat)
    (avoid : List Nat) (hf : ∀ i, f i < 256)
    (ha : ∀ b, b < 256 → b ∈ avoid) (hl : length ≠ 0) :
    ∀ fuel, Random.bytes f length avoid fuel = none := by
  intro fuel
  unfold Random.bytes
  exact bytesGo_all_avoided f (pySet avoid) length hl
    (fun i => mem_pySet.mpr (ha (f i) (hf i))) fuel 0

/-- Witness for C5: one byte requested while every byte value 0..255 is
avoided; the loop makes no progress under any of the fuel bounds 0..500. -/
theorem bytes_all_avoided_diverges_witness :
    Random.bytes (fun _ => 0) 1 (List.range 256) 500 = none :=
  bytes_all_avoided_diverges (fun _ => 0) 1 (List.range 256)
    (fun i => by show (0 : Nat) < 256; decide)
    (fun b hb => List.mem_range.mpr hb) (by decide) 500

lemma bytes_empty_avoid (f : Nat → Nat) (n : Nat) :
    Random.bytes f n [] 2 = some (osBytes f 0 n) := by
  unfold Random.bytes
  by_cases hn : n = 0
  · subst hn
    simp [bytesGo, osBytes]
  · show bytesGo f (pySet []) n 2 0 [] = some (osBytes f 0 n)
    unfold bytesGo
    rw [if_neg (by simpa using fun h => hn h.symm)]
    have hkeep : (osBytes f 0 (n - ([] : List Nat).length)).filter
        (fun b => decide (b ∉ pySet [])) = osBytes f 0 n := by
      have : n - ([] : List Nat).length = n := by simp
      rw [this, List.filter_eq_self]
      intro b _
      simp [pySet]
    show bytesGo f (pySet []) n 1
        (0 + (n - ([] : List Nat).length))
        ([] ++ (osBytes f 0 (n - ([] : List Nat).length)).filter
          (fun b => decide (b ∉ pySet []))) = some (osBytes f 0 n)
    rw [hkeep]
    unfold bytesGo
    rw [List.nil_append, if_pos (osBytes_length f 0 n)]

/-- C3 counterexample: `base64(length=10, decodable=true)` (here with an
all-zero entropy stream) returns the 12-character encoding of 9 raw bytes
(plus a newline); standard base64 decoding recovers only 9 bytes, fewer
than the 10 the claim requires. -/
theorem base64_length10_decodes_to_9 :
    Random.base64 (fun _ => 0) 10 [] true =
      .ok [65, 65, 65, 65, 65, 65, 65, 65, 65, 65, 65, 65, 10] ∧
    (a2b_base64 [65, 65, 65, 65, 65, 65, 65, 65, 65, 65, 65, 65, 10]).length
      = 9 ∧ 9 < 10 := by
  refine ⟨rfl, rfl, by decide⟩

/-- C3 amended: `base64(length, decodable=true)` generates
`ceil(length * 5/6)` raw random bytes and base64-encodes them; the result
decodes (by standard base64 decoding) to exactly those
`ceil(length * 5/6)` bytes — fewer than `length` once `length ≥ 6` — while
the encoded output itself is at least `length` characters long. -/
theorem base64_decodable_roundtrip (length : Nat) (f : Nat → Nat)
    (hf : ∀ i, f i < 256) :
    ∃ s, Random.base64 f length [] true = .ok s ∧
      a2b_base64 s = osBytes f 0 ((5 * length + 5) / 6) ∧
      (a2b_base64 s).length = (5 * length + 5) / 6 ∧
      length ≤ s.length := by
  have hmem : ∀ x ∈ osBytes f 0 ((5 * length + 5) / 6), x < 256 := by
    intro x hx
    rcases List.mem_map.mp hx with ⟨i, _, rfl⟩
    exact hf _
  have hdec : a2b_base64 (b2a_base64 (osBytes f 0 ((5 * length + 5) / 6)))
      = osBytes f 0 ((5 * length + 5) / 6) :=
    a2b_b2a_base64 _ hmem
  refine ⟨b2a_base64 (osBytes f 0 ((5 * length + 5) / 6)), ?_, hdec, ?_, ?_⟩
  · unfold Random.base64
    rw [bytes_empty_avoid]
    rfl
  · rw [hdec, osBytes_length]
  · show length ≤ (b64encode (osBytes f 0 ((5 * length + 5) / 6)) ++ [10]).length
    rw [List.length_append, b64encode_length, osBytes_length]
    simp only [List.length_singleton]
    omega

/-- Witness for C3 at length 10 with an all-zero entropy stream. -/
theorem base64_decodable_roundtrip_witness :
    ∃ s, Random.base64 (fun _ => 0) 10 [] true = .ok s ∧
      a2b_base64 s = osBytes (fun _ => 0) 0 ((5 * 10 + 5) / 6) ∧
      (a2b_base64 s).length = (5 * 10 + 5) / 6 ∧
      10 ≤ s.length :=
  base64_decodable_roundtrip 10 (fun _ => 0)
    (fun i => by show (0 : Nat) < 256; decide)
